import Mathlib

/-!
Verification of the watermill streaming-statistics library (src/src/quantile.rs,
src/src/sorted_window.rs, src/src/rolling.rs, src/src/ptp.rs).

Shallow embedding conventions:
* The generic float type `F` is embedded as exact rationals `ℚ`; a possibly-NaN
  observation is the type `FP` below.  All arithmetic the algorithms perform on
  observations is field arithmetic and comparisons, which `ℚ` models exactly.
* Rust `Result::Err` (recoverable) and `panic!`/`unwrap` (fatal) are kept apart in
  the result type `RResult`.
* `usize` is `ℕ`; `saturating_sub` is Lean's truncated `Nat` subtraction (they
  agree); a plain `usize` subtraction that would underflow is modelled as a panic
  (the overflow check of a debug build).
* `num::ToPrimitive::to_usize` on a float is `toUsize` below: defined exactly when
  the truncated value lies in `(-1, 2^64)`, truncating toward zero.
-/

/- Batteries marks the `Rat` field operations `@[irreducible]` for elaboration
performance; restore the default reducibility so that concrete executions of the
embedded algorithms can be checked by `decide`.  Reducibility settings are not
visible to the kernel, so this does not affect soundness. -/
set_option allowUnsafeReducibility true in
attribute [semireducible] Rat.add Rat.sub Rat.mul Rat.inv Rat.ofScientific

/-- An observation of the library: either NaN or a finite value (embedded as `ℚ`). -/
inductive FP where
  | nan : FP
  | fin : ℚ → FP
deriving DecidableEq

/-- The finite value carried by an `FP` (junk value 0 for NaN); used only to sort
lists that have been checked to be NaN-free. -/
def FP.val : FP → ℚ
  | .nan => 0
  | .fin a => a

/-- Float `<`: false whenever either side is NaN (IEEE comparison semantics). -/
def FP.lt : FP → FP → Bool
  | .fin a, .fin b => a < b
  | _, _ => false

/-- Float `<=`: false whenever either side is NaN. -/
def FP.le : FP → FP → Bool
  | .fin a, .fin b => a ≤ b
  | _, _ => false

/-- Float addition, propagating NaN. -/
def FP.add : FP → FP → FP
  | .fin a, .fin b => .fin (a + b)
  | _, _ => .nan

/-- Float subtraction, propagating NaN. -/
def FP.sub : FP → FP → FP
  | .fin a, .fin b => .fin (a - b)
  | _, _ => .nan

/-- Multiplication by a never-NaN scalar (marker positions and their gaps are plain
rationals in this embedding), propagating NaN. -/
def FP.mulQ (c : ℚ) : FP → FP
  | .fin a => .fin (c * a)
  | .nan => .nan

/-- Division by a never-NaN scalar, propagating NaN.  In every reachable state of
the P² estimator the divisor (a gap between two marker positions) is nonzero, so
the `ℚ` convention for division by zero is never exercised by the source
algorithm. -/
def FP.divQ : FP → ℚ → FP
  | .fin a, c => .fin (a / c)
  | .nan, _ => .nan

/-- Truncation toward zero, as Rust float-to-integer casts perform. -/
def ratTrunc (v : ℚ) : ℤ := if v < 0 then ⌈v⌉ else ⌊v⌋

/-- `num::ToPrimitive::to_usize` on a 64-bit float value: `some` exactly when the
value truncates into the `usize` range, i.e. lies in the open interval
`(-1, 2^64)`. -/
def toUsize (v : ℚ) : Option ℕ :=
  if -1 < v ∧ v < 2 ^ 64 then some (ratTrunc v).toNat else none

/-- `slice::sort_by` with the comparator `|x, y| x.partial_cmp(y).unwrap()`.
For a list of length at least two every element takes part in at least one
comparison, so one stored NaN makes `partial_cmp` return `None` and the `unwrap`
panic (`none` here); a list of length at most one is returned without invoking the
comparator at all.  On NaN-free input the comparator is the total order of the
finite values. -/
def sortOrPanic (l : List FP) : Option (List FP) :=
  if l.length ≤ 1 then some l
  else if FP.nan ∈ l then none
  else some ((List.insertionSort (· ≤ ·) (l.map FP.val)).map FP.fin)

/-- Ascending sort of rationals (the specification-level "sorted list"). -/
def sortQ (l : List ℚ) : List ℚ := List.insertionSort (· ≤ ·) l

/-- The last `min n (length l)` elements of `l`, oldest first. -/
def lastN (n : ℕ) (l : List α) : List α := l.drop (l.length - n)

/-- Minimum of a list of observations (junk 0 on the empty list). -/
def listMin : List ℚ → ℚ
  | [] => 0
  | x :: xs => xs.foldl min x

/-- Maximum of a list of observations (junk 0 on the empty list). -/
def listMax : List ℚ → ℚ
  | [] => 0
  | x :: xs => xs.foldl max x

/-! ## `src/src/sorted_window.rs` -/

/-- State of `SortedWindow<F>`: a value-ordered and an insertion-ordered sequence
plus the fixed capacity.  The constructor rejects nothing, and `push_back` panics
on NaN before storing it, so stored values are never NaN and are embedded as
`ℚ`. -/
structure SortedWindow where
  sorted_window : List ℚ
  unsorted_window : List ℚ
  window_size : ℕ
deriving DecidableEq

/-- Result of `push_back`: the new state, or a panic together with the state the
structure holds at the moment of the panic. -/
inductive PushResult where
  | ok : SortedWindow → PushResult
  | panic : String → SortedWindow → PushResult
deriving DecidableEq

/-- `SortedWindow::new`. -/
def SortedWindow.new (window_size : ℕ) : SortedWindow := ⟨[], [], window_size⟩

/-- `SortedWindow::len`. -/
def SortedWindow.len (w : SortedWindow) : ℕ := w.sorted_window.length

/-- `SortedWindow::push_back`.  The two `VecDeque::binary_search_by` calls of the
source operate on the value-ordered sequence, which is sorted in every reachable
state.  Per the documented contract of `binary_search_by` on a sorted sequence:
removal at the found index removes one occurrence of the searched value (all
occurrences are equal values, so which physical slot is removed is unobservable —
modelled by `List.erase`), a missing value panics the `.expect`, and insertion at
the returned position (found index or insertion point, `unwrap_or_else(|e| e)`)
keeps the sequence sorted — modelled by `List.orderedInsert`. -/
def SortedWindow.push_back (w : SortedWindow) (value : FP) : PushResult :=
  match value with
  | .nan => .panic "Cannot push a NaN value into SortedWindow" w
  | .fin x =>
    if w.sorted_window.length = w.window_size then
      match w.unsorted_window with
      | [] => .panic "Unsorted window should not be empty when sorted window is full" w
      | oldest :: rest =>
        if oldest ∈ w.sorted_window then
          .ok ⟨List.orderedInsert (· ≤ ·) x (w.sorted_window.erase oldest),
               rest ++ [x], w.window_size⟩
        else
          .panic "The value to remove was not found in the sorted window"
            ⟨w.sorted_window, rest, w.window_size⟩
    else
      .ok ⟨List.orderedInsert (· ≤ ·) x w.sorted_window,
           w.unsorted_window ++ [x], w.window_size⟩

/-- Drive a fresh `SortedWindow` of the given capacity with a stream of finite
observations, stopping at the first panic. -/
def runWindow (window_size : ℕ) (xs : List ℚ) : PushResult :=
  xs.foldl
    (fun acc x =>
      match acc with
      | .ok w => w.push_back (.fin x)
      | p => p)
    (.ok (SortedWindow.new window_size))

/-! ## Result type distinguishing recoverable errors from panics -/

/-- A Rust call outcome: `ok`, a recoverable `Result::Err` carrying its message,
or a fatal panic carrying its message. -/
inductive RResult (α : Type) where
  | ok : α → RResult α
  | err : String → RResult α
  | panic : String → RResult α
deriving DecidableEq

/-- Whether an outcome is a panic. -/
def RResult.isPanic {α : Type} : RResult α → Bool
  | .panic _ => true
  | _ => false

/-- Whether an outcome is a recoverable `Err`. -/
def RResult.isErr {α : Type} : RResult α → Bool
  | .err _ => true
  | _ => false

/-- Whether an outcome is `Ok`. -/
def RResult.isOk {α : Type} : RResult α → Bool
  | .ok _ => true
  | _ => false

/-! ## `src/src/quantile.rs`: the P² estimator `Quantile<F>` -/

/-- State of `Quantile<F>`.  Only `heights` ever receives raw observations, so it
holds `FP` values; the marker bookkeeping (`q`, positions) is arithmetic on
constants and is plain `ℚ`. -/
structure Quantile where
  q : ℚ
  desired_marker_position : List ℚ
  marker_position : List ℚ
  position : List ℚ
  heights : List FP
  heights_sorted : Bool
deriving DecidableEq

/-- `Quantile::new`.  The range check of the source is the (unsatisfiable)
conjunction `0 > q && 1 < q`, transcribed verbatim. -/
def Quantile.new (q : ℚ) : RResult Quantile :=
  if 0 > q ∧ 1 < q then .err "q should be betweek 0 and 1"
  else
    .ok ⟨q,
      [0, q / 2, q, (1 + q) / 2, 1],
      [1, 1 + 2 * q, 1 + 4 * q, 3 + 2 * q, 5],
      [1, 2, 3, 4, 5],
      [], false⟩

/-- The `for i in 1..=4` scan of `find_k`: the first `i` with
`heights[i-1] <= x && x < heights[i]`, if any.  Out-of-range indexing cannot
occur (`heights` has length 5 whenever `find_k` runs); `getD` stands for the
panicking `Vec` index. -/
def firstBucket (heights : List FP) (x : FP) : List ℕ → Option ℕ
  | [] => none
  | i :: is =>
    if (FP.le (heights.getD (i - 1) .nan) x && FP.lt x (heights.getD i .nan)) = true
    then some i
    else firstBucket heights x is

/-- `Quantile::find_k`: locate the marker cell of `x`, clamping `heights[0]` down
or `heights[4]` up when `x` falls outside the current marker range.  The source's
`heights.last_mut()` is `Some` exactly when `heights` is nonempty; on the empty
list `getD` returns NaN, every comparison with which is false, matching the
source's no-clamp behavior for `None`. -/
def Quantile.find_k (s : Quantile) (x : FP) : Quantile × ℕ :=
  if FP.lt x (s.heights.getD 0 .nan) = true then
    ({ s with heights := s.heights.set 0 x }, 1)
  else
    match firstBucket s.heights x [1, 2, 3, 4] with
    | some i => (s, i)
    | none =>
      if FP.lt (s.heights.getD (s.heights.length - 1) .nan) x = true then
        ({ s with heights := s.heights.set (s.heights.length - 1) x }, 4)
      else (s, 4)

/-- `Quantile::compute_p2`, the piecewise-parabolic formula.  Heights are `FP`;
the positions (and `d`) are never-NaN rationals. -/
def computeP2 (qp1 q qm1 : FP) (d np1 n nm1 : ℚ) : FP :=
  let outer := d / (np1 - nm1)
  let inner_left := FP.divQ (FP.mulQ (n - nm1 + d) (FP.sub qp1 q)) (np1 - n)
  let inner_right := FP.divQ (FP.mulQ (np1 - n - d) (FP.sub q qm1)) (n - nm1)
  FP.add q (FP.mulQ outer (FP.add inner_left inner_right))

/-- One iteration of the `for i in 1..4` loop of `Quantile::adjust`.
`copysign(1., d)` is `-1` for `d < 0` and `1` otherwise (the guard forces
`|d| ≥ 1`, so the sign-of-zero subtlety cannot arise).  The linear-interpolation
index `(i as isize + d as isize) as usize` is `(i + trunc d).toNat`; under the
guard `d = ±1` and `i ∈ {1,2,3}`, so it lies in `0..4`. -/
def Quantile.adjustStep (s : Quantile) (i : ℕ) : Quantile :=
  let n := s.position.getD i 0
  let q := s.heights.getD i .nan
  let d0 := s.marker_position.getD i 0 - n
  if (1 ≤ d0 ∧ 1 < s.position.getD (i + 1) 0 - n) ∨
     (d0 ≤ -1 ∧ s.position.getD (i - 1) 0 - n < -1) then
    let d : ℚ := if d0 < 0 then -1 else 1
    let qp1 := s.heights.getD (i + 1) .nan
    let qm1 := s.heights.getD (i - 1) .nan
    let np1 := s.position.getD (i + 1) 0
    let nm1 := s.position.getD (i - 1) 0
    let qn := computeP2 qp1 q qm1 d np1 n nm1
    let heights' :=
      if (FP.lt qm1 qn && FP.lt qn qp1) = true then s.heights.set i qn
      else
        let li := ((i : ℤ) + ratTrunc d).toNat
        s.heights.set i
          (FP.add q (FP.divQ (FP.mulQ d (FP.sub (s.heights.getD li .nan) q))
            (s.position.getD li 0 - n)))
    { s with heights := heights', position := s.position.set i (n + d) }
  else s

/-- `Quantile::adjust`: the loop body for `i = 1, 2, 3` in order. -/
def Quantile.adjust (s : Quantile) : Quantile :=
  ((s.adjustStep 1).adjustStep 2).adjustStep 3

/-- The steady-state body of `Quantile::update` (after the lazy initial sort):
`find_k`, increment `position[i]` for `i ≥ k`, advance every `marker_position`
by its desired increment, then `adjust`. -/
def Quantile.steadyBody (s : Quantile) (x : FP) : Quantile :=
  let fk := s.find_k x
  let s1 := fk.1
  let k := fk.2
  let s2 := { s1 with
    position := s1.position.mapIdx (fun idx v => if k ≤ idx then v + 1 else v) }
  let s3 := { s2 with
    marker_position := List.zipWith (· + ·) s2.marker_position s2.desired_marker_position }
  s3.adjust

/-- `Quantile::update`: push raw values while fewer than 5 are stored, otherwise
sort once lazily (setting `heights_sorted`) and run the P² cycle; every call ends
with the unconditional `heights.sort_by(partial_cmp.unwrap())`, which panics on a
stored NaN (see `sortOrPanic`). -/
def Quantile.update (s : Quantile) (x : FP) : RResult Quantile :=
  let r : RResult Quantile :=
    if s.heights.length ≠ 5 then .ok { s with heights := s.heights ++ [x] }
    else if s.heights_sorted = false then
      match sortOrPanic s.heights with
      | none => .panic "called Option::unwrap on a None value"
      | some hs =>
        .ok (Quantile.steadyBody { s with heights := hs, heights_sorted := true } x)
    else .ok (s.steadyBody x)
  match r with
  | .ok s' =>
    match sortOrPanic s'.heights with
    | none => .panic "called Option::unwrap on a None value"
    | some hs => .ok { s' with heights := hs }
  | e => e

/-- `Quantile::get`: the middle marker once initialized, otherwise the
order-statistic approximation `heights[((len-1).max(0).min(len*q)) as usize]`
over the (already sorted) collected observations.  `Vec` indexing and the
`to_usize().unwrap()` panic on failure. -/
def Quantile.get (s : Quantile) : RResult FP :=
  if s.heights_sorted = true then
    match s.heights[2]? with
    | some h => .ok h
    | none => .panic "index out of bounds"
  else
    let length : ℚ := (s.heights.length : ℚ)
    match toUsize (min (max (length - 1) 0) (length * s.q)) with
    | none => .panic "called Option::unwrap on a None value"
    | some index =>
      match s.heights[index]? with
      | some h => .ok h
      | none => .panic "index out of bounds"

/-- Drive a fresh `Quantile` with a stream of finite observations. -/
def runQuantile (q : ℚ) (xs : List ℚ) : RResult Quantile :=
  xs.foldl
    (fun acc x =>
      match acc with
      | .ok s => s.update (.fin x)
      | e => e)
    (Quantile.new q)

/-! ## `src/src/quantile.rs`: `RollingQuantile<F>` -/

/-- State of `RollingQuantile<F>`: the sorted window plus the rank/fraction triple
cached at construction for the full-window steady state. -/
structure RollingQuantile where
  sorted_window : SortedWindow
  q : ℚ
  window_size : ℕ
  lower : ℕ
  higher : ℕ
  frac : ℚ
deriving DecidableEq

/-- `RollingQuantile::new`.  Same unsatisfiable range check as `Quantile::new`;
then `lower = idx.floor().to_usize().unwrap()` (panics when the floor is
negative), the comparison `higher > window_size - 1` (whose `usize` subtraction
panics for `window_size = 0`), and the pull-back `higher = lower.saturating_sub(1)`
(Lean's `Nat` subtraction is exactly `saturating_sub`). -/
def RollingQuantile.new (q : ℚ) (window_size : ℕ) : RResult RollingQuantile :=
  if 0 > q ∧ 1 < q then .err "q should be betweek 0 and 1"
  else
    let idx := q * ((window_size : ℚ) - 1)
    match toUsize (⌊idx⌋ : ℚ) with
    | none => .panic "called Option::unwrap on a None value"
    | some lower =>
      if window_size = 0 then .panic "attempt to subtract with overflow"
      else
        let higher := if lower + 1 > window_size - 1 then lower - 1 else lower + 1
        .ok ⟨SortedWindow.new window_size, q, window_size, lower, higher,
             idx - (lower : ℚ)⟩

/-- `RollingQuantile::prepare`: while the window is still filling, recompute the
rank/fraction triple from the current length (here the pull-back is
`higher = len.saturating_sub(1)`, unlike the constructor); once full, return the
cached triple. -/
def RollingQuantile.prepare (r : RollingQuantile) : RResult (ℕ × ℕ × ℚ) :=
  if r.sorted_window.len < r.window_size then
    let idx := r.q * ((r.sorted_window.len : ℚ) - 1)
    match toUsize (⌊idx⌋ : ℚ) with
    | none => .panic "called Option::unwrap on a None value"
    | some lower =>
      if r.sorted_window.len = 0 then .panic "attempt to subtract with overflow"
      else
        let higher :=
          if lower + 1 > r.sorted_window.len - 1 then r.sorted_window.len - 1
          else lower + 1
        .ok (lower, higher, idx - (lower : ℚ))
  else .ok (r.lower, r.higher, r.frac)

/-- `RollingQuantile::update`: push into the sorted window. -/
def RollingQuantile.update (r : RollingQuantile) (x : FP) : RResult RollingQuantile :=
  match r.sorted_window.push_back x with
  | .ok w => .ok { r with sorted_window := w }
  | .panic m _ => .panic m

/-- `RollingQuantile::get`: linear interpolation
`window[lower] + (window[higher] - window[lower]) * frac`, with rank access into
the value-ordered sequence (panicking when out of bounds). -/
def RollingQuantile.get (r : RollingQuantile) : RResult ℚ :=
  match r.prepare with
  | .ok (lower, higher, frac) =>
    match r.sorted_window.sorted_window[lower]?, r.sorted_window.sorted_window[higher]? with
    | some wl, some wh => .ok (wl + (wh - wl) * frac)
    | _, _ => .panic "index out of bounds"
  | .err e => .err e
  | .panic m => .panic m

/-- Drive a fresh `RollingQuantile` with a stream of finite observations. -/
def runRollingQuantile (q : ℚ) (window_size : ℕ) (xs : List ℚ) :
    RResult RollingQuantile :=
  xs.foldl
    (fun acc x =>
      match acc with
      | .ok r => r.update (.fin x)
      | e => e)
    (RollingQuantile.new q window_size)

/-! ## `src/src/rolling.rs`: the generic `Rolling` decorator -/

/-- A revertible univariate statistic (the `Univariate` + `RollableUnivariate`
contracts): `update`, a fallible `revert`, and `get`, over an arbitrary state
type. -/
structure Stat (σ : Type) where
  update : σ → ℚ → σ
  revert : σ → ℚ → Except String σ
  get : σ → ℚ

/-- State of `Rolling<U, F>`: the wrapped statistic's state, the window size, and
the FIFO of raw observations. -/
structure RollingState (σ : Type) where
  to_roll : σ
  window_size : ℕ
  window : List ℚ
deriving DecidableEq

/-- `Rolling::new`: rejects a zero window size with a recoverable error. -/
def Rolling.new {σ : Type} (to_roll : σ) (window_size : ℕ) :
    RResult (RollingState σ) :=
  if window_size = 0 then .err "Window size should not equal to 0"
  else .ok ⟨to_roll, window_size, []⟩

/-- `Rolling::update`: when the FIFO is at capacity, revert the oldest raw value
on the wrapped statistic (panicking, by design, if `revert` reports an error) and
rotate the FIFO; always push `x` and `update` the wrapped statistic with it. -/
def Rolling.update {σ : Type} (S : Stat σ) (r : RollingState σ) (x : ℚ) :
    RResult (RollingState σ) :=
  if r.window.length = r.window_size then
    match r.window with
    | [] => .panic "Window should not be empty"
    | oldest :: rest =>
      match S.revert r.to_roll oldest with
      | .ok s => .ok ⟨S.update s x, r.window_size, rest ++ [x]⟩
      | .error e => .panic e
  else .ok ⟨S.update r.to_roll x, r.window_size, r.window ++ [x]⟩

/-- `Rolling::get`: forward to the wrapped statistic. -/
def Rolling.get {σ : Type} (S : Stat σ) (r : RollingState σ) : ℚ :=
  S.get r.to_roll

/-- Drive a fresh `Rolling` decorator over statistic `S` (initial wrapped state
`s0`) with a stream of observations. -/
def runRolling {σ : Type} (S : Stat σ) (s0 : σ) (window_size : ℕ)
    (xs : List ℚ) : RResult (RollingState σ) :=
  xs.foldl
    (fun acc x =>
      match acc with
      | .ok r => Rolling.update S r x
      | e => e)
    (Rolling.new s0 window_size)

/-- The running `Sum` statistic, the simplest revertible collaborator (spec §2:
"simple accumulator statistics (running sum, ...)" with `revert` the algebraic
inverse); `src/sum.rs` itself is outside `src/`, so this is modelled from the
spec's description.  Used only to instantiate the generic decorator theorem. -/
def sumStat : Stat ℚ :=
  ⟨fun s x => s + x, fun s x => .ok (s - x), fun s => s⟩

/-! ## `src/src/ptp.rs`: rolling peak-to-peak -/

/-- Modelled from the spec: `RollingMin` lives in `src/minimum.rs`, which is not
under `src/`.  Per spec §2/§4.2 the dedicated rolling min is window-based, built
on the sorted sliding window of the given capacity, and `SortedWindow::new`
performs no capacity validation. -/
structure RollingMin where
  sorted_window : SortedWindow
deriving DecidableEq

/-- Modelled from the spec: construction of `RollingMin` (see `RollingMin`). -/
def RollingMin.new (window_size : ℕ) : RollingMin :=
  ⟨SortedWindow.new window_size⟩

/-- Modelled from the spec: `RollingMax` lives in `src/maximum.rs`, which is not
under `src/`; same construction as `RollingMin`. -/
structure RollingMax where
  sorted_window : SortedWindow
deriving DecidableEq

/-- Modelled from the spec: construction of `RollingMax` (see `RollingMax`). -/
def RollingMax.new (window_size : ℕ) : RollingMax :=
  ⟨SortedWindow.new window_size⟩

/-- State of `RollingPeakToPeak<F>` (src/src/ptp.rs): a rolling min and a rolling
max over the same window size. -/
structure RollingPeakToPeak where
  min : RollingMin
  max : RollingMax
deriving DecidableEq

/-- `RollingPeakToPeak::new` (src/src/ptp.rs): plain composition, no validation,
no `Result` in its signature. -/
def RollingPeakToPeak.new (window_size : ℕ) : RollingPeakToPeak :=
  ⟨RollingMin.new window_size, RollingMax.new window_size⟩

/-! ## Specification-side definitions (for the refinement-style claims) -/

/-- Spec §4.3: `lower = floor(q * (L - 1))` for effective window length `L`. -/
def specLower (q : ℚ) (L : ℕ) : ℕ := (⌊q * ((L : ℚ) - 1)⌋).toNat

/-- Spec §4.3: `frac = idx - lower`. -/
def specFrac (q : ℚ) (L : ℕ) : ℚ := q * ((L : ℚ) - 1) - (specLower q L : ℚ)

/-- The pull-back of `higher = lower + 1` as the code actually performs it: when
`lower + 1` would exceed the maximum valid rank `L - 1`, the full-window path
(triple cached by the constructor) falls back to `lower - 1` (saturating), while
the filling path recomputed by `prepare` falls back to `L - 1`. -/
def specHigher (q : ℚ) (L : ℕ) (full : Bool) : ℕ :=
  if specLower q L + 1 > L - 1 then
    (if full then specLower q L - 1 else L - 1)
  else specLower q L + 1

/-- The canonical reachable window state: insertion order `u`, value order
`sortQ u`. -/
def winState (N : ℕ) (u : List ℚ) : SortedWindow := ⟨sortQ u, u, N⟩

/-- Invariant of the P² estimator state after the stream `seen` has been fed to a
freshly constructed estimator: the collected heights are NaN-free, hold
`min (len seen) 5` values all lying between the extremes of `seen`, are kept
ascending by the unconditional end-of-update sort, `heights_sorted` flips exactly
at the sixth observation, and during the collection phase the heights are exactly
the sorted observations. -/
def QuantInv (q : ℚ) (seen : List ℚ) (s : Quantile) : Prop :=
  s.q = q ∧
  ∃ hs : List ℚ,
    s.heights = hs.map FP.fin ∧
    hs.length = min seen.length 5 ∧
    List.Sorted (· ≤ ·) hs ∧
    (∀ v ∈ hs, listMin seen ≤ v ∧ v ≤ listMax seen) ∧
    s.heights_sorted = decide (6 ≤ seen.length) ∧
    (seen.length ≤ 5 → hs = sortQ seen)

/-- NaN-free heights of length 5 whose values all lie in `[lo, hi]`: the shape
preserved by the steady-state mutation steps of `Quantile::update`. -/
def HeightsOK (lo hi : ℚ) (l : List FP) : Prop :=
  l.length = 5 ∧ ∀ h ∈ l, ∃ v : ℚ, h = .fin v ∧ lo ≤ v ∧ v ≤ hi

/-! ## Helper lemmas: sorting -/

lemma sortQ_sorted (l : List ℚ) : List.Sorted (· ≤ ·) (sortQ l) :=
  List.sorted_insertionSort _ l

lemma sortQ_perm (l : List ℚ) : (sortQ l).Perm l :=
  List.perm_insertionSort _ l

lemma sortQ_eq_of_sorted {l : List ℚ} (h : List.Sorted (· ≤ ·) l) : sortQ l = l :=
  List.eq_of_perm_of_sorted (sortQ_perm l) (sortQ_sorted l) h

lemma sortQ_congr {l₁ l₂ : List ℚ} (h : l₁.Perm l₂) : sortQ l₁ = sortQ l₂ :=
  List.eq_of_perm_of_sorted ((sortQ_perm l₁).trans (h.trans (sortQ_perm l₂).symm))
    (sortQ_sorted l₁) (sortQ_sorted l₂)

lemma sortQ_length (l : List ℚ) : (sortQ l).length = l.length :=
  (sortQ_perm l).length_eq

lemma mem_sortQ {x : ℚ} {l : List ℚ} : x ∈ sortQ l ↔ x ∈ l :=
  (sortQ_perm l).mem_iff

lemma orderedInsert_sortQ (x : ℚ) (l : List ℚ) :
    List.orderedInsert (· ≤ ·) x (sortQ l) = sortQ (l ++ [x]) := by
  refine List.eq_of_perm_of_sorted ?_ (List.Sorted.orderedInsert x _ (sortQ_sorted l))
    (sortQ_sorted _)
  exact (List.perm_orderedInsert _ x _).trans
    ((((sortQ_perm l).cons x).trans (List.perm_append_singleton x l).symm).trans
      (sortQ_perm _).symm)

lemma erase_sortQ (a : ℚ) (l : List ℚ) : (sortQ (a :: l)).erase a = sortQ l := by
  refine List.eq_of_perm_of_sorted ?_ ?_ (sortQ_sorted l)
  · have h1 : ((sortQ (a :: l)).erase a).Perm ((a :: l).erase a) :=
      (sortQ_perm (a :: l)).erase a
    rw [List.erase_cons_head] at h1
    exact h1.trans (sortQ_perm l).symm
  · exact (sortQ_sorted (a :: l)).sublist (List.erase_sublist a _)

/-! ## Helper lemmas: the last `min N (length)` elements -/

lemma length_lastN (n : ℕ) (l : List α) : (lastN n l).length = min n l.length := by
  simp [lastN, List.length_drop]; omega

lemma lastN_snoc (N : ℕ) (hN : 1 ≤ N) (l : List α) (x : α) :
    lastN N (l ++ [x]) =
      if (lastN N l).length = N then (lastN N l).tail ++ [x] else lastN N l ++ [x] := by
  have hlen := length_lastN N l
  by_cases h : l.length < N
  · have h0 : l.length - N = 0 := by omega
    have h1 : l.length + 1 - N = 0 := by omega
    have hcond : ¬ (lastN N l).length = N := by omega
    rw [if_neg hcond]
    show (l ++ [x]).drop ((l ++ [x]).length - N) = l.drop (l.length - N) ++ [x]
    simp [h0, h1]
  · have hcond : (lastN N l).length = N := by omega
    have hle : l.length + 1 - N ≤ l.length := by omega
    rw [if_pos hcond]
    unfold lastN
    rw [List.length_append, List.length_singleton,
      List.drop_append_of_le_length (by simpa using hle), List.tail_drop]
    congr 2
    omega

/-! ## The sorted sliding window: reachable states -/

lemma push_back_winState (N : ℕ) (hN : 1 ≤ N) (u : List ℚ) (hu : u.length ≤ N) (x : ℚ) :
    (winState N u).push_back (.fin x) =
      .ok (winState N (if u.length = N then u.tail ++ [x] else u ++ [x])) := by
  by_cases h : u.length = N
  · rw [if_pos h]
    obtain ⟨a, rest, rfl⟩ : ∃ a rest, u = a :: rest := by
      cases u with
      | nil => exact absurd h.symm (by simp; omega)
      | cons a rest => exact ⟨a, rest, rfl⟩
    have hmem : a ∈ sortQ (a :: rest) := mem_sortQ.mpr (List.mem_cons_self a rest)
    simp only [winState, SortedWindow.push_back, sortQ_length, h, if_true, if_pos hmem,
      List.tail_cons, erase_sortQ, orderedInsert_sortQ, eq_self_iff_true]
  · rw [if_neg h]
    simp only [winState, SortedWindow.push_back, sortQ_length]
    rw [if_neg h]
    simp only [orderedInsert_sortQ]

lemma runWindow_eq (N : ℕ) (hN : 1 ≤ N) (xs : List ℚ) :
    runWindow N xs = .ok (winState N (lastN N xs)) := by
  induction xs using List.reverseRecOn with
  | nil => simp [runWindow, winState, lastN, SortedWindow.new, sortQ, List.insertionSort]
  | append_singleton xs x ih =>
    have hstep := push_back_winState N hN (lastN N xs)
      (by rw [length_lastN]; omega) x
    have hlen := lastN_snoc N hN xs x
    unfold runWindow at ih ⊢
    rw [List.foldl_append]
    simp only [ih, hstep, List.foldl_cons, List.foldl_nil, hlen]

/-- Claim C8: for every sorted-window state, pushing a NaN value fails
deterministically (panics) before any mutation, so both the value-ordered and the
insertion-ordered sequence at the moment of the panic are exactly the prior
state. -/
theorem C8_push_nan_panics_state_unchanged (w : SortedWindow) :
    w.push_back FP.nan = .panic "Cannot push a NaN value into SortedWindow" w := rfl

/-- Claim C2: for every window size `N ≥ 1` and every finite stream, the
value-ordered sequence after the whole stream (hence, by instantiating `xs` with
any prefix, at every point) is the ascending sort of the last `min N (length)`
pushed values, the insertion-ordered sequence is exactly those values, the two
sequences are permutations of each other (same multiset), the value-ordered one
is sorted, and the length never exceeds `N`. -/
theorem C2_sorted_window_tracks_sorted_suffix (N : ℕ) (hN : 1 ≤ N) (xs : List ℚ) :
    runWindow N xs = .ok ⟨sortQ (lastN N xs), lastN N xs, N⟩ ∧
    (sortQ (lastN N xs)).Perm (lastN N xs) ∧
    List.Sorted (· ≤ ·) (sortQ (lastN N xs)) ∧
    (lastN N xs).length = min N xs.length ∧
    (sortQ (lastN N xs)).length ≤ N := by
  refine ⟨runWindow_eq N hN xs, sortQ_perm _, sortQ_sorted _, length_lastN N xs, ?_⟩
  rw [sortQ_length, length_lastN]
  omega

/-- Witness for C2 at spec §8 scenario 4: capacity 3, stream `10,20,5,15,2`. -/
theorem C2_witness :
    1 ≤ 3 ∧ runWindow 3 [10, 20, 5, 15, 2] = .ok ⟨[2, 5, 15], [5, 15, 2], 3⟩ :=
  ⟨by decide,
   ((C2_sorted_window_tracks_sorted_suffix 3 (by decide) [10, 20, 5, 15, 2]).1).trans
     (by decide)⟩

/-! ## The rolling decorator -/

lemma foldl_update_append {σ : Type} (S : Stat σ) (s : σ) (l : List ℚ) (x : ℚ) :
    List.foldl S.update s (l ++ [x]) = S.update (List.foldl S.update s l) x := by
  rw [List.foldl_append]
  rfl

lemma rolling_update_inv {σ : Type} (S : Stat σ) (s0 : σ)
    (hrev : ∀ s x ws, S.revert (List.foldl S.update (S.update s x) ws) x =
      Except.ok (List.foldl S.update s ws))
    (N : ℕ) (hN : 1 ≤ N) (u : List ℚ) (x : ℚ) :
    Rolling.update S ⟨List.foldl S.update s0 u, N, u⟩ x =
      .ok ⟨List.foldl S.update s0 (if u.length = N then u.tail ++ [x] else u ++ [x]), N,
           if u.length = N then u.tail ++ [x] else u ++ [x]⟩ := by
  by_cases h : u.length = N
  · rw [if_pos h]
    obtain ⟨a, rest, rfl⟩ : ∃ a rest, u = a :: rest := by
      cases u with
      | nil => exact absurd h.symm (by simp; omega)
      | cons a rest => exact ⟨a, rest, rfl⟩
    unfold Rolling.update
    simp only [List.foldl_cons, h, if_true, eq_self_iff_true, hrev s0 a rest,
      List.tail_cons, foldl_update_append]
  · rw [if_neg h]
    unfold Rolling.update
    simp only [h, if_false, foldl_update_append]

lemma runRolling_eq {σ : Type} (S : Stat σ) (s0 : σ)
    (hrev : ∀ s x ws, S.revert (List.foldl S.update (S.update s x) ws) x =
      Except.ok (List.foldl S.update s ws))
    (N : ℕ) (hN : 1 ≤ N) (xs : List ℚ) :
    runRolling S s0 N xs = .ok ⟨List.foldl S.update s0 (lastN N xs), N, lastN N xs⟩ := by
  induction xs using List.reverseRecOn with
  | nil =>
    unfold runRolling Rolling.new
    rw [List.foldl_nil, if_neg (by omega)]
    simp [lastN]
  | append_singleton xs x ih =>
    unfold runRolling at ih ⊢
    rw [List.foldl_append, ih]
    simp only [List.foldl_cons, List.foldl_nil]
    rw [rolling_update_inv S s0 hrev N hN (lastN N xs) x, lastN_snoc N hN]

/-- Claim C3: for every revertible statistic whose `revert x` exactly undoes a
prior `update x` (also after later updates), and every window size `N ≥ 1`, the
decorator state after any stream holds exactly the wrapped state obtained by
feeding a fresh statistic the last `min N (length)` stream values in order, and
`get` forwards to the wrapped statistic on exactly that state.  Instantiating
`xs` with each prefix of a stream gives the per-step equivalence. -/
theorem C3_rolling_decorator_equiv {σ : Type} (S : Stat σ)
    (hrev : ∀ s x ws, S.revert (List.foldl S.update (S.update s x) ws) x =
      Except.ok (List.foldl S.update s ws))
    (s0 : σ) (N : ℕ) (hN : 1 ≤ N) (xs : List ℚ) :
    runRolling S s0 N xs = .ok ⟨List.foldl S.update s0 (lastN N xs), N, lastN N xs⟩ ∧
    Rolling.get S ⟨List.foldl S.update s0 (lastN N xs), N, lastN N xs⟩ =
      S.get (List.foldl S.update s0 (lastN N xs)) :=
  ⟨runRolling_eq S s0 hrev N hN xs, rfl⟩

lemma foldl_add_shift (a c : ℚ) (l : List ℚ) :
    List.foldl (fun s x => s + x) (a + c) l = List.foldl (fun s x => s + x) a l + c := by
  induction l generalizing a with
  | nil => rfl
  | cons b t ih =>
    simp only [List.foldl_cons]
    rw [show a + c + b = a + b + c by ring, ih]

/-- Witness for C3: the rolling sum of window 2 over the doc-test stream is
`5 + 4 = 9`. -/
theorem C3_witness :
    runRolling sumStat 0 2 [9, 7, 3, 2, 6, 1, 8, 5, 4] = .ok ⟨9, 2, [5, 4]⟩ := by
  have hrev : ∀ (s x : ℚ) (ws : List ℚ),
      sumStat.revert (List.foldl sumStat.update (sumStat.update s x) ws) x =
        Except.ok (List.foldl sumStat.update s ws) := by
    intro s x ws
    show Except.ok (List.foldl (fun s x => s + x) (s + x) ws - x) =
      Except.ok (List.foldl (fun s x => s + x) s ws)
    rw [foldl_add_shift]
    simp
  exact ((C3_rolling_decorator_equiv sumStat hrev 0 2 (by decide)
    [9, 7, 3, 2, 6, 1, 8, 5, 4]).1).trans (by decide)

/-! ## Float-to-usize conversion facts -/

lemma toUsize_intCast_nonneg (z : ℤ) (h0 : 0 ≤ z) (hub : (z : ℚ) < 2 ^ 64) :
    toUsize (z : ℚ) = some z.toNat := by
  unfold toUsize
  rw [if_pos ⟨by
    have : (0 : ℚ) ≤ (z : ℚ) := by exact_mod_cast h0
    linarith, hub⟩]
  unfold ratTrunc
  rw [if_neg (not_lt.mpr (by exact_mod_cast h0 : (0 : ℚ) ≤ (z : ℚ)))]
  rw [Int.floor_intCast]

lemma toUsize_floor_of_nonneg (v : ℚ) (h0 : 0 ≤ v) (hub : v < 2 ^ 64) :
    toUsize ((⌊v⌋ : ℤ) : ℚ) = some ⌊v⌋.toNat :=
  toUsize_intCast_nonneg ⌊v⌋ (Int.floor_nonneg.mpr h0)
    (lt_of_le_of_lt (Int.floor_le v) hub)

lemma toUsize_floor_neg (v : ℚ) (h : v < 0) : toUsize ((⌊v⌋ : ℤ) : ℚ) = none := by
  unfold toUsize
  rw [if_neg]
  rintro ⟨h1, -⟩
  have hz : (-1 : ℤ) < ⌊v⌋ := by exact_mod_cast h1
  have : (0 : ℚ) ≤ ⌊v⌋ := by exact_mod_cast (by omega : (0 : ℤ) ≤ ⌊v⌋)
  have := Int.floor_le v
  linarith

/-! ## `RollingQuantile`: constructor and `prepare` on reachable states -/

lemma specLower_le (q : ℚ) (hq0 : 0 ≤ q) (hq1 : q ≤ 1) (L : ℕ) (h1 : 1 ≤ L) :
    specLower q L ≤ L - 1 := by
  unfold specLower
  have hL1 : (0 : ℚ) ≤ (L : ℚ) - 1 := by
    have : (1 : ℚ) ≤ (L : ℚ) := by exact_mod_cast h1
    linarith
  have hle : q * ((L : ℚ) - 1) ≤ (((L : ℤ) - 1 : ℤ) : ℚ) := by
    push_cast
    nlinarith
  have := (Int.floor_le_floor hle).trans_eq (Int.floor_intCast _)
  omega

lemma specHigher_le (q : ℚ) (hq0 : 0 ≤ q) (hq1 : q ≤ 1) (L : ℕ) (h1 : 1 ≤ L)
    (full : Bool) : specHigher q L full ≤ L - 1 := by
  have h := specLower_le q hq0 hq1 L h1
  unfold specHigher
  split
  · cases full <;> simp <;> omega
  · omega

lemma specHigher_lt_iff (q : ℚ) (hq0 : 0 ≤ q) (hq1 : q ≤ 1) (L : ℕ) (h1 : 1 ≤ L)
    (full : Bool) :
    specHigher q L full < specLower q L ↔
      full = true ∧ specLower q L = L - 1 ∧ 1 ≤ specLower q L := by
  have h := specLower_le q hq0 hq1 L h1
  unfold specHigher
  cases full with
  | false => split <;> simp <;> omega
  | true => split <;> simp <;> omega

lemma rq_new_ok (q : ℚ) (hq0 : 0 ≤ q) (hq1 : q ≤ 1) (N : ℕ) (hN : 1 ≤ N)
    (hub : (N : ℚ) ≤ 2 ^ 64) :
    RollingQuantile.new q N =
      .ok ⟨SortedWindow.new N, q, N, specLower q N, specHigher q N true,
           specFrac q N⟩ := by
  have hN1 : (0 : ℚ) ≤ (N : ℚ) - 1 := by
    have : (1 : ℚ) ≤ (N : ℚ) := by exact_mod_cast hN
    linarith
  have hidx0 : 0 ≤ q * ((N : ℚ) - 1) := mul_nonneg hq0 hN1
  have hidxub : q * ((N : ℚ) - 1) < 2 ^ 64 := by nlinarith
  unfold RollingQuantile.new
  rw [if_neg (by rintro ⟨h1, h2⟩; linarith)]
  simp only [toUsize_floor_of_nonneg _ hidx0 hidxub]
  rw [if_neg (by omega)]
  have hcast : ((⌊q * ((N : ℚ) - 1)⌋.toNat : ℕ) : ℚ) = ((⌊q * ((N : ℚ) - 1)⌋ : ℤ) : ℚ) := by
    exact_mod_cast congrArg (fun z : ℤ => (z : ℚ)) (Int.toNat_of_nonneg (Int.floor_nonneg.mpr hidx0))
  simp only [specLower, specHigher, specFrac, if_true, hcast]

lemma rq_prepare_full (r : RollingQuantile) (h : ¬ r.sorted_window.len < r.window_size) :
    r.prepare = .ok (r.lower, r.higher, r.frac) := by
  unfold RollingQuantile.prepare
  rw [if_neg h]

lemma rq_prepare_filling (r : RollingQuantile) (hq0 : 0 ≤ r.q) (hq1 : r.q ≤ 1)
    (hlt : r.sorted_window.len < r.window_size) (h1 : 1 ≤ r.sorted_window.len)
    (hub : (r.sorted_window.len : ℚ) ≤ 2 ^ 64) :
    r.prepare = .ok (specLower r.q r.sorted_window.len,
      specHigher r.q r.sorted_window.len false,
      specFrac r.q r.sorted_window.len) := by
  have hL1 : (0 : ℚ) ≤ (r.sorted_window.len : ℚ) - 1 := by
    have : (1 : ℚ) ≤ (r.sorted_window.len : ℚ) := by exact_mod_cast h1
    linarith
  have hidx0 : 0 ≤ r.q * ((r.sorted_window.len : ℚ) - 1) := mul_nonneg hq0 hL1
  have hidxub : r.q * ((r.sorted_window.len : ℚ) - 1) < 2 ^ 64 := by nlinarith
  unfold RollingQuantile.prepare
  rw [if_pos hlt]
  simp only [toUsize_floor_of_nonneg _ hidx0 hidxub]
  rw [if_neg (by omega)]
  have hcast : ((⌊r.q * ((r.sorted_window.len : ℚ) - 1)⌋.toNat : ℕ) : ℚ) =
      ((⌊r.q * ((r.sorted_window.len : ℚ) - 1)⌋ : ℤ) : ℚ) := by
    exact_mod_cast congrArg (fun z : ℤ => (z : ℚ)) (Int.toNat_of_nonneg (Int.floor_nonneg.mpr hidx0))
  simp only [specLower, specHigher, specFrac, Bool.false_eq_true, if_false, hcast]

lemma runRollingQuantile_eq (q : ℚ) (hq0 : 0 ≤ q) (hq1 : q ≤ 1) (N : ℕ) (hN : 1 ≤ N)
    (hub : (N : ℚ) ≤ 2 ^ 64) (xs : List ℚ) :
    runRollingQuantile q N xs =
      .ok ⟨winState N (lastN N xs), q, N, specLower q N, specHigher q N true,
           specFrac q N⟩ := by
  induction xs using List.reverseRecOn with
  | nil =>
    unfold runRollingQuantile
    rw [List.foldl_nil, rq_new_ok q hq0 hq1 N hN hub]
    simp [winState, SortedWindow.new, lastN, sortQ]
  | append_singleton xs x ih =>
    unfold runRollingQuantile at ih ⊢
    rw [List.foldl_append, ih]
    simp only [List.foldl_cons, List.foldl_nil]
    unfold RollingQuantile.update
    rw [push_back_winState N hN (lastN N xs) (by rw [length_lastN]; omega) x,
      lastN_snoc N hN]

lemma rq_get (r : RollingQuantile) (lo hi : ℕ) (fr : ℚ)
    (hprep : r.prepare = .ok (lo, hi, fr))
    (hlo : lo < r.sorted_window.sorted_window.length)
    (hhi : hi < r.sorted_window.sorted_window.length) :
    r.get = .ok (r.sorted_window.sorted_window.getD lo 0 +
      (r.sorted_window.sorted_window.getD hi 0 -
       r.sorted_window.sorted_window.getD lo 0) * fr) := by
  unfold RollingQuantile.get
  rw [hprep]
  dsimp only
  rw [List.getElem?_eq_getElem hlo, List.getElem?_eq_getElem hhi,
    List.getD_eq_getElem _ _ hlo, List.getD_eq_getElem _ _ hhi]

lemma run_rq_state_prepare (q : ℚ) (hq0 : 0 ≤ q) (hq1 : q ≤ 1) (N : ℕ) (hN : 1 ≤ N)
    (hub : (N : ℚ) ≤ 2 ^ 64) (xs : List ℚ) (hxs : xs ≠ []) :
    (⟨winState N (lastN N xs), q, N, specLower q N, specHigher q N true,
      specFrac q N⟩ : RollingQuantile).prepare =
      .ok (specLower q (min N xs.length),
        specHigher q (min N xs.length) (decide (N ≤ xs.length)),
        specFrac q (min N xs.length)) := by
  have hxs1 : 1 ≤ xs.length := List.length_pos.mpr hxs
  have hlen : (winState N (lastN N xs)).len = min N xs.length := by
    unfold winState SortedWindow.len
    rw [sortQ_length, length_lastN]
  by_cases hfull : N ≤ xs.length
  · have hLN : min N xs.length = N := min_eq_left hfull
    rw [rq_prepare_full _ (by show ¬ (winState N (lastN N xs)).len < N; omega)]
    rw [decide_eq_true hfull, hLN]
  · have hlt : xs.length < N := by omega
    have hLN : min N xs.length = xs.length := by omega
    have hxub : ((winState N (lastN N xs)).len : ℚ) ≤ 2 ^ 64 := by
      rw [hlen, hLN]
      have h1 : (xs.length : ℚ) < (N : ℚ) := by exact_mod_cast hlt
      linarith
    have h2 := rq_prepare_filling
      (⟨winState N (lastN N xs), q, N, specLower q N, specHigher q N true,
        specFrac q N⟩ : RollingQuantile) hq0 hq1
      (by show (winState N (lastN N xs)).len < N; omega)
      (by show 1 ≤ (winState N (lastN N xs)).len; omega) hxub
    rw [h2, decide_eq_false hfull]
    show RResult.ok (specLower q (winState N (lastN N xs)).len,
      specHigher q (winState N (lastN N xs)).len false,
      specFrac q (winState N (lastN N xs)).len) = _
    rw [hlen]

/-- Claim C6 (corrected): in `RollingQuantile`, for every `q ∈ [0,1]` and effective
window length `L ≥ 1`, `get()` computes `lower = ⌊q*(L-1)⌋`,
`frac = q*(L-1) - lower`, pulls `higher = lower+1` back when it would exceed the
maximum valid rank `L-1`, and returns
`window[lower] + (window[higher] - window[lower]) * frac`.  Correction: the
pull-back target differs between the two paths (`lower-1` saturating in the
full-window triple cached by the constructor, `L-1` in the filling path), so
`higher < lower` occurs exactly when the window is full and `lower = L-1 ≥ 1`
(for instance `q = 1` with `L ≥ 2`), and NOT in the single-element-window edge
case, where `higher = lower = 0`. -/
theorem C6_rolling_quantile_interpolation (q : ℚ) (hq0 : 0 ≤ q) (hq1 : q ≤ 1)
    (N : ℕ) (hN : 1 ≤ N) (hub : (N : ℚ) ≤ 2 ^ 64) (xs : List ℚ) (hxs : xs ≠ []) :
    ∃ r, runRollingQuantile q N xs = .ok r ∧
      r.prepare = .ok (specLower q (min N xs.length),
        specHigher q (min N xs.length) (decide (N ≤ xs.length)),
        specFrac q (min N xs.length)) ∧
      r.get = .ok ((sortQ (lastN N xs)).getD (specLower q (min N xs.length)) 0 +
        ((sortQ (lastN N xs)).getD
            (specHigher q (min N xs.length) (decide (N ≤ xs.length))) 0 -
         (sortQ (lastN N xs)).getD (specLower q (min N xs.length)) 0) *
        specFrac q (min N xs.length)) ∧
      (specHigher q (min N xs.length) (decide (N ≤ xs.length)) <
          specLower q (min N xs.length) ↔
        N ≤ xs.length ∧ specLower q (min N xs.length) = min N xs.length - 1 ∧
          1 ≤ specLower q (min N xs.length)) := by
  have hxs1 : 1 ≤ xs.length := List.length_pos.mpr hxs
  have hL1 : 1 ≤ min N xs.length := by omega
  have hprep := run_rq_state_prepare q hq0 hq1 N hN hub xs hxs
  have hwin : ((⟨winState N (lastN N xs), q, N, specLower q N, specHigher q N true,
      specFrac q N⟩ : RollingQuantile).sorted_window).sorted_window.length =
      min N xs.length := by
    show (winState N (lastN N xs)).sorted_window.length = min N xs.length
    unfold winState
    rw [sortQ_length, length_lastN]
  have hlo := specLower_le q hq0 hq1 (min N xs.length) hL1
  have hhi := specHigher_le q hq0 hq1 (min N xs.length) hL1 (decide (N ≤ xs.length))
  refine ⟨_, runRollingQuantile_eq q hq0 hq1 N hN hub xs, hprep, ?_, ?_⟩
  · exact rq_get _ _ _ _ hprep (by rw [hwin]; omega) (by rw [hwin]; omega)
  · rw [specHigher_lt_iff q hq0 hq1 _ hL1]
    simp only [decide_eq_true_eq]

/-- Counterexample for C6 as stated: with `q = 1`, window size 2 and stream
`[0, 1]` the window is full with two elements and the prepared ranks are
`lower = 1`, `higher = 0`, i.e. `higher < lower` outside the single-element-window
edge case. -/
theorem C6_counterexample :
    runRollingQuantile 1 2 [0, 1] = .ok ⟨⟨[0, 1], [0, 1], 2⟩, 1, 2, 1, 0, 0⟩ ∧
    RollingQuantile.prepare ⟨⟨[0, 1], [0, 1], 2⟩, 1, 2, 1, 0, 0⟩ = .ok (1, 0, 0) ∧
    SortedWindow.len ⟨[0, 1], [0, 1], 2⟩ = 2 := by decide

/-- Witness for C6 at spec §8 scenario 3 (shortened stream): `q = 1`,
window size 1, stream `0,1,2`. -/
theorem C6_witness :
    ∃ r, runRollingQuantile 1 1 [0, 1, 2] = .ok r ∧
      r.prepare = .ok (specLower 1 (min 1 3), specHigher 1 (min 1 3) (decide (1 ≤ 3)),
        specFrac 1 (min 1 3)) ∧
      r.get = .ok ((sortQ (lastN 1 [0, 1, 2])).getD (specLower 1 (min 1 3)) 0 +
        ((sortQ (lastN 1 [0, 1, 2])).getD
            (specHigher 1 (min 1 3) (decide (1 ≤ 3))) 0 -
         (sortQ (lastN 1 [0, 1, 2])).getD (specLower 1 (min 1 3)) 0) *
        specFrac 1 (min 1 3)) ∧
      (specHigher 1 (min 1 3) (decide (1 ≤ 3)) < specLower 1 (min 1 3) ↔
        1 ≤ 3 ∧ specLower 1 (min 1 3) = min 1 3 - 1 ∧ 1 ≤ specLower 1 (min 1 3)) :=
  C6_rolling_quantile_interpolation 1 (by norm_num) (by norm_num) 1 (by norm_num)
    (by norm_num) [0, 1, 2] (by simp)

lemma toUsize_floor_ge (v : ℚ) (h : (2 : ℚ) ^ 64 ≤ v) :
    toUsize ((⌊v⌋ : ℤ) : ℚ) = none := by
  unfold toUsize
  rw [if_neg]
  rintro ⟨-, h2⟩
  have hz : (2 : ℤ) ^ 64 ≤ ⌊v⌋ := Int.le_floor.mpr (by push_cast; linarith)
  have : (2 : ℚ) ^ 64 ≤ ((⌊v⌋ : ℤ) : ℚ) := by exact_mod_cast hz
  linarith

/-- Claim C1 (corrected): the range check `0 > q && 1 < q` is unsatisfiable, so
neither constructor ever returns the range-validation `Err`: `Quantile::new`
returns `Ok` for every `q`, and `RollingQuantile::new` returns `Ok` for every
`q ≥ 0` whose rank computation fits `usize` — but, correcting the claim, for
`q < 0` with `w ≥ 2` the constructor panics (the `floor` is negative, so
`to_usize()` yields `None` and the `unwrap` fails) instead of returning `Ok`. -/
theorem C1_range_check_never_rejects :
    (∀ q : ℚ, Quantile.new q =
      .ok ⟨q, [0, q / 2, q, (1 + q) / 2, 1],
        [1, 1 + 2 * q, 1 + 4 * q, 3 + 2 * q, 5], [1, 2, 3, 4, 5], [], false⟩) ∧
    (∀ (q : ℚ) (w : ℕ), (RollingQuantile.new q w).isErr = false) ∧
    (∀ (q : ℚ) (w : ℕ), 0 ≤ q → 1 ≤ w → q * ((w : ℚ) - 1) < 2 ^ 64 →
      (RollingQuantile.new q w).isOk = true) ∧
    (∀ (q : ℚ) (w : ℕ), q < 0 → 2 ≤ w → (RollingQuantile.new q w).isPanic = true) := by
  refine ⟨?_, ?_, ?_, ?_⟩
  · intro q
    unfold Quantile.new
    rw [if_neg (by rintro ⟨h1, h2⟩; linarith)]
  · intro q w
    unfold RollingQuantile.new
    rw [if_neg (by rintro ⟨h1, h2⟩; linarith)]
    dsimp only
    rcases htu : toUsize ((⌊q * ((w : ℚ) - 1)⌋ : ℤ) : ℚ) with - | lower
    · rfl
    · dsimp only
      by_cases hw : w = 0
      · rw [if_pos hw]
        rfl
      · rw [if_neg hw]
        rfl
  · intro q w hq0 hw hub
    have hw1 : (0 : ℚ) ≤ (w : ℚ) - 1 := by
      have : (1 : ℚ) ≤ (w : ℚ) := by exact_mod_cast hw
      linarith
    unfold RollingQuantile.new
    rw [if_neg (by rintro ⟨h1, h2⟩; linarith)]
    dsimp only
    rw [toUsize_floor_of_nonneg _ (mul_nonneg hq0 hw1) hub]
    dsimp only
    rw [if_neg (show ¬ w = 0 by omega)]
    rfl
  · intro q w hq hw
    have hw1 : (1 : ℚ) ≤ (w : ℚ) - 1 := by
      have : (2 : ℚ) ≤ (w : ℚ) := by exact_mod_cast hw
      linarith
    have hneg : q * ((w : ℚ) - 1) < 0 :=
      mul_neg_of_neg_of_pos hq (by linarith)
    unfold RollingQuantile.new
    rw [if_neg (by rintro ⟨h1, h2⟩; linarith)]
    dsimp only
    rw [toUsize_floor_neg _ hneg]
    rfl

/-- Counterexample for C1 as stated: `RollingQuantile::new(-1/2, 2)` does not
return `Ok` (nor `Err`) — it panics at the `to_usize().unwrap()`. -/
theorem C1_counterexample :
    RollingQuantile.new (-1 / 2) 2 = .panic "called Option::unwrap on a None value" := by
  decide

/-- Witness for C1 at concrete inputs. -/
theorem C1_witness :
    (RollingQuantile.new (1 / 2) 3).isOk = true ∧
    (RollingQuantile.new (-1) 3).isPanic = true :=
  ⟨C1_range_check_never_rejects.2.2.1 (1 / 2) 3 (by norm_num) (by norm_num) (by norm_num),
   C1_range_check_never_rejects.2.2.2 (-1) 3 (by norm_num) (by norm_num)⟩

/-- Claim C9 (corrected): only the `Rolling` decorator validates its window size
with a recoverable error.  `RollingQuantile::new(q, 0)` fails non-recoverably
(a panic: for positive `q` the negative floor fails `to_usize().unwrap()`, and
otherwise the `usize` subtraction `window_size - 1` underflows), and
`RollingPeakToPeak::new` performs no validation at all — it cannot fail, its
signature has no `Result`, and it simply builds the two windows. -/
theorem C9_window_size_validation :
    (∀ (σ : Type) (s : σ), Rolling.new s 0 = .err "Window size should not equal to 0") ∧
    (∀ (σ : Type) (s : σ) (N : ℕ), Rolling.new s (N + 1) = .ok ⟨s, N + 1, []⟩) ∧
    (∀ q : ℚ, (RollingQuantile.new q 0).isPanic = true) ∧
    (∀ N : ℕ, RollingPeakToPeak.new N = ⟨⟨SortedWindow.new N⟩, ⟨SortedWindow.new N⟩⟩) := by
  refine ⟨fun σ s => rfl, fun σ s N => ?_, fun q => ?_, fun N => rfl⟩
  · unfold Rolling.new
    rw [if_neg (by omega)]
  · unfold RollingQuantile.new
    rw [if_neg (by rintro ⟨h1, h2⟩; linarith)]
    dsimp only
    rcases lt_or_le (q * (((0 : ℕ) : ℚ) - 1)) 0 with hneg | hpos
    · rw [toUsize_floor_neg _ hneg]
      rfl
    · rcases lt_or_le (q * (((0 : ℕ) : ℚ) - 1)) (2 ^ 64) with hub | hub
      · rw [toUsize_floor_of_nonneg _ hpos hub]
        rfl
      · rw [toUsize_floor_ge _ hub]
        rfl

/-- Counterexample for C9 as stated: with window size 0, `RollingQuantile::new`
panics instead of returning a recoverable error, and `RollingPeakToPeak::new`
succeeds without any validation. -/
theorem C9_counterexample :
    RollingQuantile.new (1 / 2) 0 = .panic "called Option::unwrap on a None value" ∧
    RollingPeakToPeak.new 0 = ⟨⟨⟨[], [], 0⟩⟩, ⟨⟨[], [], 0⟩⟩⟩ := by
  constructor
  · decide
  · rfl

/-! ## The P² estimator: invariants -/

lemma FP.lt_spec {p r : FP} (h : FP.lt p r = true) :
    ∃ a b : ℚ, p = .fin a ∧ r = .fin b ∧ a < b := by
  cases p with
  | nan => simp [FP.lt] at h
  | fin a =>
    cases r with
    | nan => simp [FP.lt] at h
    | fin b => exact ⟨a, b, rfl, rfl, by simpa [FP.lt] using h⟩

lemma sortOrPanic_map_fin (l : List ℚ) :
    sortOrPanic (l.map FP.fin) = some ((sortQ l).map FP.fin) := by
  rcases l with - | ⟨a, - | ⟨b, t⟩⟩
  · rfl
  · rfl
  · unfold sortOrPanic
    rw [if_neg (by simp), if_neg (by simp)]
    simp only [List.map_map]
    rw [show (FP.val ∘ FP.fin) = id from rfl, List.map_id]
    rfl

lemma eq_map_val_fin {l : List FP} (h : ∀ x ∈ l, ∃ v : ℚ, x = .fin v) :
    l = (l.map FP.val).map FP.fin := by
  induction l with
  | nil => rfl
  | cons a t ih =>
    obtain ⟨v, rfl⟩ := h a (List.mem_cons_self a t)
    simp only [List.map_cons]
    rw [← ih (fun x hx => h x (List.mem_cons_of_mem _ hx))]
    rfl

lemma listMin_append (l : List ℚ) (x : ℚ) :
    listMin (l ++ [x]) = if l = [] then x else min (listMin l) x := by
  cases l with
  | nil => rfl
  | cons a t =>
    rw [if_neg (by simp)]
    show (t ++ [x]).foldl min a = min (t.foldl min a) x
    rw [List.foldl_append]
    rfl

lemma listMax_append (l : List ℚ) (x : ℚ) :
    listMax (l ++ [x]) = if l = [] then x else max (listMax l) x := by
  cases l with
  | nil => rfl
  | cons a t =>
    rw [if_neg (by simp)]
    show (t ++ [x]).foldl max a = max (t.foldl max a) x
    rw [List.foldl_append]
    rfl

lemma bounds_mono {seen : List ℚ} {x v : ℚ} (hne : seen ≠ [])
    (h : listMin seen ≤ v ∧ v ≤ listMax seen) :
    listMin (seen ++ [x]) ≤ v ∧ v ≤ listMax (seen ++ [x]) := by
  rw [listMin_append, listMax_append, if_neg hne, if_neg hne]
  exact ⟨le_trans (min_le_left _ _) h.1, le_trans h.2 (le_max_left _ _)⟩

lemma bounds_self (seen : List ℚ) (x : ℚ) :
    listMin (seen ++ [x]) ≤ x ∧ x ≤ listMax (seen ++ [x]) := by
  rw [listMin_append, listMax_append]
  by_cases h : seen = []
  · rw [if_pos h, if_pos h]
    exact ⟨le_refl x, le_refl x⟩
  · rw [if_neg h, if_neg h]
    exact ⟨min_le_right _ _, le_max_right _ _⟩

lemma heightsOK_set {lo hi : ℚ} {l : List FP} (h : HeightsOK lo hi l) {x : FP}
    (i : ℕ) (hx : ∃ v : ℚ, x = .fin v ∧ lo ≤ v ∧ v ≤ hi) :
    HeightsOK lo hi (l.set i x) := by
  refine ⟨by rw [List.length_set]; exact h.1, ?_⟩
  intro a ha
  rcases List.mem_or_eq_of_mem_set ha with ha | rfl
  · exact h.2 a ha
  · exact hx

lemma heightsOK_getD {lo hi : ℚ} {l : List FP} (h : HeightsOK lo hi l) {i : ℕ}
    (hi5 : i < 5) : ∃ v : ℚ, l.getD i .nan = .fin v ∧ lo ≤ v ∧ v ≤ hi := by
  have hlen : i < l.length := by rw [h.1]; exact hi5
  rw [List.getD_eq_getElem _ _ hlen]
  exact h.2 _ (List.getElem_mem hlen)

lemma find_k_heightsOK {lo hi : ℚ} (s : Quantile) (h : HeightsOK lo hi s.heights)
    {x : FP} (hx : ∃ v : ℚ, x = .fin v ∧ lo ≤ v ∧ v ≤ hi) :
    HeightsOK lo hi (s.find_k x).1.heights := by
  unfold Quantile.find_k
  by_cases h0 : FP.lt x (s.heights.getD 0 .nan) = true
  · rw [if_pos h0]
    exact heightsOK_set h 0 hx
  · rw [if_neg h0]
    rcases hfb : firstBucket s.heights x [1, 2, 3, 4] with - | i
    · dsimp only
      by_cases hl : FP.lt (s.heights.getD (s.heights.length - 1) .nan) x = true
      · rw [if_pos hl]
        exact heightsOK_set h _ hx
      · rw [if_neg hl]
        exact h
    · exact h

lemma find_k_flag (s : Quantile) (x : FP) :
    (s.find_k x).1.heights_sorted = s.heights_sorted := by
  unfold Quantile.find_k
  by_cases h0 : FP.lt x (s.heights.getD 0 .nan) = true
  · rw [if_pos h0]
  · rw [if_neg h0]
    rcases hfb : firstBucket s.heights x [1, 2, 3, 4] with - | i
    · dsimp only
      by_cases hl : FP.lt (s.heights.getD (s.heights.length - 1) .nan) x = true
      · rw [if_pos hl]
      · rw [if_neg hl]
    · rfl

lemma ratTrunc_one : ratTrunc 1 = 1 := by decide

lemma ratTrunc_neg_one : ratTrunc (-1) = -1 := by decide

lemma convex_bound {lo hi a b t : ℚ} (ha0 : lo ≤ a) (ha1 : a ≤ hi) (hb0 : lo ≤ b)
    (hb1 : b ≤ hi) (ht0 : 0 < t) (ht1 : t < 1) :
    lo ≤ a + (b - a) * t ∧ a + (b - a) * t ≤ hi := by
  constructor
  · nlinarith [mul_nonneg (by linarith : (0 : ℚ) ≤ a - lo) (by linarith : (0 : ℚ) ≤ 1 - t),
      mul_nonneg (by linarith : (0 : ℚ) ≤ b - lo) (by linarith : (0 : ℚ) ≤ t)]
  · nlinarith [mul_nonneg (by linarith : (0 : ℚ) ≤ hi - a) (by linarith : (0 : ℚ) ≤ 1 - t),
      mul_nonneg (by linarith : (0 : ℚ) ≤ hi - b) (by linarith : (0 : ℚ) ≤ t)]

lemma adjustStep_heightsOK {lo hi : ℚ} (s : Quantile) (h : HeightsOK lo hi s.heights)
    (i : ℕ) (hi1 : 1 ≤ i) (hi3 : i ≤ 3) :
    HeightsOK lo hi (s.adjustStep i).heights := by
  unfold Quantile.adjustStep
  dsimp only
  split
  · rename_i hg
    by_cases hd : s.marker_position.getD i 0 - s.position.getD i 0 < 0
    · rw [if_pos hd, ratTrunc_neg_one]
      have hli : ((i : ℤ) + -1).toNat = i - 1 := by omega
      rw [hli]
      split
      · rename_i hacc
        rw [Bool.and_eq_true] at hacc
        obtain ⟨a, b, hqm1, hqn, hab⟩ := FP.lt_spec hacc.1
        obtain ⟨b', c, hqn', hqp1, hbc⟩ := FP.lt_spec hacc.2
        have hbb : b = b' := by
          rw [hqn] at hqn'
          exact FP.fin.inj hqn'
        obtain ⟨va, hva, hva0, hva1⟩ := heightsOK_getD h (show i - 1 < 5 by omega)
        obtain ⟨vc, hvc, hvc0, hvc1⟩ := heightsOK_getD h (show i + 1 < 5 by omega)
        rw [hva] at hqm1
        rw [hvc] at hqp1
        have haa : va = a := FP.fin.inj hqm1
        have hcc : vc = c := FP.fin.inj hqp1
        subst hbb
        exact heightsOK_set h i ⟨b, hqn, by linarith, by linarith⟩
      · have hg2 : s.position.getD (i - 1) 0 - s.position.getD i 0 < -1 := by
          rcases hg with ⟨hg1, -⟩ | ⟨-, hg2⟩
          · linarith
          · exact hg2
        obtain ⟨qv, hq, hq0, hq1⟩ := heightsOK_getD h (show i < 5 by omega)
        obtain ⟨hv, hh, hh0, hh1⟩ := heightsOK_getD h (show i - 1 < 5 by omega)
        rw [hq, hh]
        have ht0 : 0 < -1 / (s.position.getD (i - 1) 0 - s.position.getD i 0) := by
          rw [div_pos_iff]
          exact Or.inr ⟨by norm_num, by linarith⟩
        have ht1 : -1 / (s.position.getD (i - 1) 0 - s.position.getD i 0) < 1 := by
          have hrw : -1 / (s.position.getD (i - 1) 0 - s.position.getD i 0) =
              1 / (-(s.position.getD (i - 1) 0 - s.position.getD i 0)) := by
            rw [div_neg, neg_div]
          rw [hrw, div_lt_one (by linarith)]
          linarith
        have hb := convex_bound hq0 hq1 hh0 hh1 ht0 ht1
        refine heightsOK_set h i ⟨qv + (hv - qv) *
          (-1 / (s.position.getD (i - 1) 0 - s.position.getD i 0)), ?_, hb.1, hb.2⟩
        simp only [FP.add, FP.sub, FP.mulQ, FP.divQ, FP.fin.injEq]
        ring
    · rw [if_neg hd, ratTrunc_one]
      have hli : ((i : ℤ) + 1).toNat = i + 1 := by omega
      rw [hli]
      split
      · rename_i hacc
        rw [Bool.and_eq_true] at hacc
        obtain ⟨a, b, hqm1, hqn, hab⟩ := FP.lt_spec hacc.1
        obtain ⟨b', c, hqn', hqp1, hbc⟩ := FP.lt_spec hacc.2
        have hbb : b = b' := by
          rw [hqn] at hqn'
          exact FP.fin.inj hqn'
        obtain ⟨va, hva, hva0, hva1⟩ := heightsOK_getD h (show i - 1 < 5 by omega)
        obtain ⟨vc, hvc, hvc0, hvc1⟩ := heightsOK_getD h (show i + 1 < 5 by omega)
        rw [hva] at hqm1
        rw [hvc] at hqp1
        have haa : va = a := FP.fin.inj hqm1
        have hcc : vc = c := FP.fin.inj hqp1
        subst hbb
        exact heightsOK_set h i ⟨b, hqn, by linarith, by linarith⟩
      · have hg2 : 1 < s.position.getD (i + 1) 0 - s.position.getD i 0 := by
          rcases hg with ⟨-, hg1⟩ | ⟨hg2, -⟩
          · exact hg1
          · linarith
        obtain ⟨qv, hq, hq0, hq1⟩ := heightsOK_getD h (show i < 5 by omega)
        obtain ⟨hv, hh, hh0, hh1⟩ := heightsOK_getD h (show i + 1 < 5 by omega)
        rw [hq, hh]
        have ht0 : 0 < 1 / (s.position.getD (i + 1) 0 - s.position.getD i 0) :=
          div_pos one_pos (by linarith)
        have ht1 : 1 / (s.position.getD (i + 1) 0 - s.position.getD i 0) < 1 := by
          rw [div_lt_one (by linarith)]
          linarith
        have hb := convex_bound hq0 hq1 hh0 hh1 ht0 ht1
        refine heightsOK_set h i ⟨qv + (hv - qv) *
          (1 / (s.position.getD (i + 1) 0 - s.position.getD i 0)), ?_, hb.1, hb.2⟩
        simp only [FP.add, FP.sub, FP.mulQ, FP.divQ, FP.fin.injEq]
        ring
  · exact h

lemma adjustStep_flag (s : Quantile) (i : ℕ) :
    (s.adjustStep i).heights_sorted = s.heights_sorted := by
  unfold Quantile.adjustStep
  dsimp only
  split
  · rfl
  · rfl

lemma steadyBody_heightsOK {lo hi : ℚ} (s : Quantile) (h : HeightsOK lo hi s.heights)
    {x : FP} (hx : ∃ v : ℚ, x = .fin v ∧ lo ≤ v ∧ v ≤ hi) :
    HeightsOK lo hi (s.steadyBody x).heights := by
  unfold Quantile.steadyBody Quantile.adjust
  dsimp only
  apply adjustStep_heightsOK _ _ 3 (by norm_num) (by norm_num)
  apply adjustStep_heightsOK _ _ 2 (by norm_num) (by norm_num)
  apply adjustStep_heightsOK _ _ 1 (by norm_num) (by norm_num)
  exact find_k_heightsOK s h hx

lemma steadyBody_flag (s : Quantile) (x : FP) :
    (s.steadyBody x).heights_sorted = s.heights_sorted := by
  unfold Quantile.steadyBody Quantile.adjust
  dsimp only
  rw [adjustStep_flag, adjustStep_flag, adjustStep_flag]
  exact find_k_flag s x

lemma find_k_q (s : Quantile) (x : FP) : (s.find_k x).1.q = s.q := by
  unfold Quantile.find_k
  by_cases h0 : FP.lt x (s.heights.getD 0 .nan) = true
  · rw [if_pos h0]
  · rw [if_neg h0]
    rcases hfb : firstBucket s.heights x [1, 2, 3, 4] with - | i
    · dsimp only
      by_cases hl : FP.lt (s.heights.getD (s.heights.length - 1) .nan) x = true
      · rw [if_pos hl]
      · rw [if_neg hl]
    · rfl

lemma adjustStep_q (s : Quantile) (i : ℕ) : (s.adjustStep i).q = s.q := by
  unfold Quantile.adjustStep
  dsimp only
  split
  · rfl
  · rfl

lemma steadyBody_q (s : Quantile) (x : FP) : (s.steadyBody x).q = s.q := by
  unfold Quantile.steadyBody Quantile.adjust
  dsimp only
  rw [adjustStep_q, adjustStep_q, adjustStep_q]
  exact find_k_q s x

lemma update_fin_inv (q : ℚ) (seen : List ℚ) (x : ℚ) (s : Quantile)
    (h : QuantInv q seen s) :
    ∃ s', s.update (.fin x) = .ok s' ∧ QuantInv q (seen ++ [x]) s' := by
  obtain ⟨hq, hs, hheights, hlen, hsort, hbounds, hflag, hfill⟩ := h
  by_cases hsmall : seen.length ≤ 4
  · -- collection phase: fewer than 5 observations stored
    have hlen5 : s.heights.length ≠ 5 := by
      rw [hheights, List.length_map]
      omega
    refine ⟨{ s with heights := (sortQ (hs ++ [x])).map FP.fin }, ?_, ?_⟩
    · unfold Quantile.update
      rw [if_pos hlen5]
      dsimp only
      rw [hheights, show [FP.fin x] = ([x].map FP.fin) from rfl, ← List.map_append,
        sortOrPanic_map_fin]
    · refine ⟨hq, sortQ (hs ++ [x]), rfl, ?_, sortQ_sorted _, ?_, ?_, ?_⟩
      · rw [sortQ_length, List.length_append, List.length_append]
        simp only [List.length_singleton]
        omega
      · intro v hv
        rw [mem_sortQ] at hv
        rcases List.mem_append.mp hv with hv | hv
        · have h1 : 0 < hs.length := List.length_pos.mpr (List.ne_nil_of_mem hv)
          have h2 : 0 < seen.length := by omega
          exact bounds_mono (List.length_pos.mp h2) (hbounds v hv)
        · rw [List.mem_singleton] at hv
          rw [hv]
          exact bounds_self seen x
      · show s.heights_sorted = _
        rw [hflag]
        refine decide_eq_decide.mpr ?_
        rw [List.length_append]
        simp only [List.length_singleton]
        omega
      · intro h5
        rw [hfill (by omega)]
        exact sortQ_congr ((sortQ_perm seen).append (List.Perm.refl [x]))
  · -- steady phase: 5 observations stored
    have hlen5 : s.heights.length = 5 := by
      rw [hheights, List.length_map]
      omega
    have hne : seen ≠ [] := by
      intro h0
      rw [h0] at hsmall
      simp at hsmall
    have hOK : HeightsOK (listMin (seen ++ [x])) (listMax (seen ++ [x])) s.heights := by
      refine ⟨hlen5, ?_⟩
      intro a ha
      rw [hheights] at ha
      obtain ⟨v, hv, rfl⟩ := List.mem_map.mp ha
      have hb := bounds_mono (x := x) hne (hbounds v hv)
      exact ⟨v, rfl, hb.1, hb.2⟩
    have hxok : ∃ v : ℚ, (FP.fin x) = FP.fin v ∧
        listMin (seen ++ [x]) ≤ v ∧ v ≤ listMax (seen ++ [x]) :=
      ⟨x, rfl, bounds_self seen x⟩
    have hsne : sortQ hs = hs := sortQ_eq_of_sorted hsort
    by_cases h6 : 6 ≤ seen.length
    · -- already initialized: heights_sorted is true
      have hflagT : s.heights_sorted = true := by
        rw [hflag]
        exact decide_eq_true h6
      have hbody := steadyBody_heightsOK s hOK hxok
      have heq2 : (s.steadyBody (.fin x)).heights =
          ((s.steadyBody (.fin x)).heights.map FP.val).map FP.fin :=
        eq_map_val_fin (fun a ha => (hbody.2 a ha).imp (fun v hv => hv.1))
      refine ⟨{ s.steadyBody (.fin x) with
          heights := (sortQ ((s.steadyBody (.fin x)).heights.map FP.val)).map FP.fin },
        ?_, ?_⟩
      · unfold Quantile.update
        rw [if_neg (show ¬ s.heights.length ≠ 5 by simp [hlen5])]
        rw [if_neg (show ¬ s.heights_sorted = false by simp [hflagT])]
        dsimp only
        conv_lhs => rw [heq2, sortOrPanic_map_fin]
      · refine ⟨(steadyBody_q s (.fin x)).trans hq,
          sortQ ((s.steadyBody (.fin x)).heights.map FP.val), rfl, ?_,
          sortQ_sorted _, ?_, ?_, ?_⟩
        · rw [sortQ_length, List.length_map, hbody.1, List.length_append]
          simp only [List.length_singleton]
          omega
        · intro v hv
          rw [mem_sortQ] at hv
          obtain ⟨a, ha, rfl⟩ := List.mem_map.mp hv
          obtain ⟨v', hv', hb0, hb1⟩ := hbody.2 a ha
          rw [hv']
          exact ⟨hb0, hb1⟩
        · show (s.steadyBody (.fin x)).heights_sorted = _
          rw [steadyBody_flag, hflagT]
          refine (decide_eq_true ?_).symm
          rw [List.length_append]
          simp only [List.length_singleton]
          omega
        · intro hcon
          rw [List.length_append] at hcon
          simp only [List.length_singleton] at hcon
          omega
    · -- exactly 5 observations: lazy initial sort happens now
      have hflagF : s.heights_sorted = false := by
        rw [hflag]
        exact decide_eq_false (by omega)
      have hOKt : HeightsOK (listMin (seen ++ [x])) (listMax (seen ++ [x]))
          (hs.map FP.fin) := hheights ▸ hOK
      have hbody := steadyBody_heightsOK
        { s with heights := hs.map FP.fin, heights_sorted := true } hOKt hxok
      have heq2 : (Quantile.steadyBody
          { s with heights := hs.map FP.fin, heights_sorted := true } (.fin x)).heights =
          ((Quantile.steadyBody
            { s with heights := hs.map FP.fin, heights_sorted := true }
              (.fin x)).heights.map FP.val).map FP.fin :=
        eq_map_val_fin (fun a ha => (hbody.2 a ha).imp (fun v hv => hv.1))
      refine ⟨{ Quantile.steadyBody
          { s with heights := hs.map FP.fin, heights_sorted := true } (.fin x) with
          heights := (sortQ ((Quantile.steadyBody
            { s with heights := hs.map FP.fin, heights_sorted := true }
              (.fin x)).heights.map FP.val)).map FP.fin }, ?_, ?_⟩
      · unfold Quantile.update
        rw [if_neg (show ¬ s.heights.length ≠ 5 by simp [hlen5])]
        rw [if_pos hflagF]
        dsimp only
        conv_lhs => rw [hheights, sortOrPanic_map_fin, hsne]
        dsimp only
        conv_lhs => rw [heq2, sortOrPanic_map_fin]
      · refine ⟨(steadyBody_q
            { s with heights := hs.map FP.fin, heights_sorted := true } (.fin x)).trans hq,
          sortQ ((Quantile.steadyBody
          { s with heights := hs.map FP.fin, heights_sorted := true }
            (.fin x)).heights.map FP.val), rfl, ?_, sortQ_sorted _, ?_, ?_, ?_⟩
        · rw [sortQ_length, List.length_map, hbody.1, List.length_append]
          simp only [List.length_singleton]
          omega
        · intro v hv
          rw [mem_sortQ] at hv
          obtain ⟨a, ha, rfl⟩ := List.mem_map.mp hv
          obtain ⟨v', hv', hb0, hb1⟩ := hbody.2 a ha
          rw [hv']
          exact ⟨hb0, hb1⟩
        · show (Quantile.steadyBody
            { s with heights := hs.map FP.fin, heights_sorted := true }
              (.fin x)).heights_sorted = _
          rw [steadyBody_flag]
          refine (decide_eq_true ?_).symm
          rw [List.length_append]
          simp only [List.length_singleton]
          omega
        · intro hcon
          rw [List.length_append] at hcon
          simp only [List.length_singleton] at hcon
          omega

lemma runQuantile_inv (q : ℚ) (xs : List ℚ) :
    ∃ s, runQuantile q xs = .ok s ∧ QuantInv q xs s := by
  induction xs using List.reverseRecOn with
  | nil =>
    refine ⟨⟨q, [0, q / 2, q, (1 + q) / 2, 1],
      [1, 1 + 2 * q, 1 + 4 * q, 3 + 2 * q, 5], [1, 2, 3, 4, 5], [], false⟩, ?_, ?_⟩
    · unfold runQuantile
      rw [List.foldl_nil]
      unfold Quantile.new
      rw [if_neg (by rintro ⟨h1, h2⟩; linarith)]
    · exact ⟨rfl, [], rfl, rfl, List.sorted_nil, by intro v hv; simp at hv, rfl,
        fun _ => rfl⟩
  | append_singleton xs x ih =>
    obtain ⟨s, hrun, hinv⟩ := ih
    obtain ⟨s', hupd, hinv'⟩ := update_fin_inv q xs x s hinv
    refine ⟨s', ?_, hinv'⟩
    unfold runQuantile at hrun ⊢
    rw [List.foldl_append, hrun]
    simp only [List.foldl_cons, List.foldl_nil]
    exact hupd

lemma floor_min_eq (a b : ℚ) : ⌊min a b⌋ = min ⌊a⌋ ⌊b⌋ := by
  rcases le_total a b with h | h
  · rw [min_eq_left h, min_eq_left (Int.floor_le_floor h)]
  · rw [min_eq_right h, min_eq_right (Int.floor_le_floor h)]

lemma getD_map_fin (hs : List ℚ) (i : ℕ) (h : i < hs.length) :
    (hs.map FP.fin).getD i .nan = .fin (hs.getD i 0) := by
  rw [List.getD_eq_getElem _ _ (by rw [List.length_map]; exact h),
    List.getD_eq_getElem _ _ h, List.getElem_map]

lemma quantile_get_sorted (s : Quantile) (hflag : s.heights_sorted = true)
    (h2 : 2 < s.heights.length) :
    s.get = .ok (s.heights.getD 2 .nan) := by
  unfold Quantile.get
  rw [if_pos hflag, List.getElem?_eq_getElem h2, List.getD_eq_getElem _ _ h2]

lemma quantile_get_filling (s : Quantile) (hs : List ℚ)
    (hflag : s.heights_sorted = false) (hheights : s.heights = hs.map FP.fin)
    (hq0 : 0 ≤ s.q) (hq1 : s.q ≤ 1) (h1 : 1 ≤ hs.length) (h5 : hs.length ≤ 5) :
    s.get = .ok (.fin (hs.getD
      (min (hs.length - 1) (⌊(hs.length : ℚ) * s.q⌋).toNat) 0)) := by
  have hlen1 : (1 : ℚ) ≤ (hs.length : ℚ) := by exact_mod_cast h1
  have hlen5 : (hs.length : ℚ) ≤ 5 := by exact_mod_cast h5
  unfold Quantile.get
  rw [if_neg (by simp [hflag])]
  dsimp only
  rw [hheights, List.length_map]
  rw [max_eq_left (by linarith : (0 : ℚ) ≤ (hs.length : ℚ) - 1)]
  have ha0 : 0 ≤ min ((hs.length : ℚ) - 1) ((hs.length : ℚ) * s.q) :=
    le_min (by linarith) (mul_nonneg (by linarith) hq0)
  have haub : min ((hs.length : ℚ) - 1) ((hs.length : ℚ) * s.q) < 2 ^ 64 :=
    lt_of_le_of_lt (min_le_left _ _) (by norm_num; linarith)
  have htu : toUsize (min ((hs.length : ℚ) - 1) ((hs.length : ℚ) * s.q)) =
      some (⌊min ((hs.length : ℚ) - 1) ((hs.length : ℚ) * s.q)⌋).toNat := by
    unfold toUsize ratTrunc
    rw [if_pos ⟨by linarith, haub⟩, if_neg (not_lt.mpr ha0)]
  rw [htu]
  dsimp only
  have hfloor : ⌊min ((hs.length : ℚ) - 1) ((hs.length : ℚ) * s.q)⌋ =
      min ((hs.length : ℤ) - 1) ⌊(hs.length : ℚ) * s.q⌋ := by
    rw [floor_min_eq]
    congr 1
    rw [show ((hs.length : ℚ) - 1) = (((hs.length : ℤ) - 1 : ℤ) : ℚ) by push_cast; ring,
      Int.floor_intCast]
  have hfl0 : 0 ≤ ⌊(hs.length : ℚ) * s.q⌋ :=
    Int.floor_nonneg.mpr (mul_nonneg (by linarith) hq0)
  have hidx : (⌊min ((hs.length : ℚ) - 1) ((hs.length : ℚ) * s.q)⌋).toNat =
      min (hs.length - 1) (⌊(hs.length : ℚ) * s.q⌋).toNat := by
    omega
  rw [hidx]
  have hlt : min (hs.length - 1) (⌊(hs.length : ℚ) * s.q⌋).toNat < hs.length := by
    omega
  rw [List.getElem?_eq_getElem (by rw [List.length_map]; exact hlt), List.getElem_map,
    List.getD_eq_getElem _ _ hlt]

/-- Claim C4 (corrected): the five collected heights are sorted and
`heights_sorted` is set lazily at the start of the SIXTH update, not the fifth.
After six or more updates the flag is true, the five heights are kept ascending,
and `get()` returns `heights[2]`; after exactly five updates the flag is still
false and `get()` still uses the collection-phase order-statistic formula. -/
theorem C4_initialized_after_sixth_update (q : ℚ) (xs : List ℚ) (h6 : 6 ≤ xs.length) :
    ∃ s, runQuantile q xs = .ok s ∧ s.heights_sorted = true ∧ s.heights.length = 5 ∧
      List.Sorted (· ≤ ·) (s.heights.map FP.val) ∧
      s.get = .ok (s.heights.getD 2 .nan) := by
  obtain ⟨s, hrun, hq, hs, hheights, hlen, hsort, hbounds, hflag, hfill⟩ :=
    runQuantile_inv q xs
  have hflagT : s.heights_sorted = true := by
    rw [hflag]
    exact decide_eq_true h6
  have hlen5 : s.heights.length = 5 := by
    rw [hheights, List.length_map]
    omega
  refine ⟨s, hrun, hflagT, hlen5, ?_, quantile_get_sorted s hflagT (by omega)⟩
  rw [hheights, List.map_map, show FP.val ∘ FP.fin = id from rfl, List.map_id]
  exact hsort

/-- Counterexample for C4 as stated (mirrors the repository's own
`first_five_value` test): with `q = 0.99` and stream `5,0,0,0,0`, after exactly 5
updates `heights_sorted` is still false and `get()` returns 5 — the collection
formula's `heights[4]` — not `heights[2] = 0`. -/
theorem C4_counterexample :
    runQuantile (99 / 100) [5, 0, 0, 0, 0] =
      .ok ⟨99 / 100, [0, 99 / 200, 99 / 100, 199 / 200, 1],
        [1, 149 / 50, 124 / 25, 249 / 50, 5], [1, 2, 3, 4, 5],
        [.fin 0, .fin 0, .fin 0, .fin 0, .fin 5], false⟩ ∧
    Quantile.get ⟨99 / 100, [0, 99 / 200, 99 / 100, 199 / 200, 1],
        [1, 149 / 50, 124 / 25, 249 / 50, 5], [1, 2, 3, 4, 5],
        [.fin 0, .fin 0, .fin 0, .fin 0, .fin 5], false⟩ = .ok (.fin 5) ∧
    List.getD [FP.fin 0, .fin 0, .fin 0, .fin 0, .fin 5] 2 FP.nan = .fin 0 := by
  decide

/-- Witness for C4 at the doc-test stream. -/
theorem C4_witness :
    ∃ s, runQuantile (1 / 2) [9, 7, 3, 2, 6, 1, 8, 5, 4] = .ok s ∧
      s.heights_sorted = true ∧ s.heights.length = 5 ∧
      List.Sorted (· ≤ ·) (s.heights.map FP.val) ∧
      s.get = .ok (s.heights.getD 2 .nan) :=
  C4_initialized_after_sixth_update (1 / 2) [9, 7, 3, 2, 6, 1, 8, 5, 4] (by decide)

/-- Claim C5: for `q ∈ [0,1]` and any stream of at least 5 finite observations,
`get()` after every update (the `i`-th prefix) lies between the minimum and the
maximum of the observations seen so far. -/
theorem C5_get_bounded_by_extremes (q : ℚ) (hq0 : 0 ≤ q) (hq1 : q ≤ 1)
    (xs : List ℚ) (h5 : 5 ≤ xs.length) (i : ℕ) (hi1 : 1 ≤ i) (hile : i ≤ xs.length) :
    ∃ s v, runQuantile q (xs.take i) = .ok s ∧ s.get = .ok (.fin v) ∧
      listMin (xs.take i) ≤ v ∧ v ≤ listMax (xs.take i) := by
  obtain ⟨s, hrun, hq, hs, hheights, hlen, hsort, hbounds, hflag, hfill⟩ :=
    runQuantile_inv q (xs.take i)
  have hlent : (xs.take i).length = i := by
    rw [List.length_take]
    omega
  by_cases h6 : 6 ≤ i
  · have hflagT : s.heights_sorted = true := by
      rw [hflag, hlent]
      exact decide_eq_true h6
    have hlen5 : hs.length = 5 := by
      rw [hlen, hlent]
      omega
    have hget := quantile_get_sorted s hflagT (by rw [hheights, List.length_map]; omega)
    refine ⟨s, hs.getD 2 0, hrun, ?_, ?_⟩
    · rw [hget, hheights, getD_map_fin hs 2 (by omega)]
    · have hmem : hs.getD 2 0 ∈ hs := by
        rw [List.getD_eq_getElem _ _ (by omega : 2 < hs.length)]
        exact List.getElem_mem _
      exact hbounds _ hmem
  · have hflagF : s.heights_sorted = false := by
      rw [hflag, hlent]
      exact decide_eq_false (by omega)
    have hget := quantile_get_filling s hs hflagF hheights (by rw [hq]; exact hq0)
      (by rw [hq]; exact hq1) (by rw [hlen, hlent]; omega) (by rw [hlen, hlent]; omega)
    have hidxlt : min (hs.length - 1) (⌊(hs.length : ℚ) * s.q⌋).toNat < hs.length := by
      have h0 : 1 ≤ hs.length := by
        rw [hlen, hlent]
        omega
      omega
    refine ⟨s, hs.getD (min (hs.length - 1) (⌊(hs.length : ℚ) * s.q⌋).toNat) 0, hrun,
      hget, ?_⟩
    have hmem : hs.getD (min (hs.length - 1) (⌊(hs.length : ℚ) * s.q⌋).toNat) 0 ∈ hs := by
      rw [List.getD_eq_getElem _ _ hidxlt]
      exact List.getElem_mem _
    exact hbounds _ hmem

/-- Witness for C5 at the doc-test stream, after all 9 updates. -/
theorem C5_witness :
    ∃ s v, runQuantile (1 / 2) (List.take 9 [9, 7, 3, 2, 6, 1, 8, 5, 4]) = .ok s ∧
      s.get = .ok (.fin v) ∧
      listMin (List.take 9 [9, 7, 3, 2, 6, 1, 8, 5, 4]) ≤ v ∧
      v ≤ listMax (List.take 9 [9, 7, 3, 2, 6, 1, 8, 5, 4]) :=
  C5_get_bounded_by_extremes (1 / 2) (by norm_num) (by norm_num)
    [9, 7, 3, 2, 6, 1, 8, 5, 4] (by decide) 9 (by decide) (by decide)

/-- Claim C7: during the collection phase (1 to 4 observations), `get()` returns
the element at index `min (len-1) ⌊len*q⌋` (inherently clamped below at 0) of the
observations sorted ascending. -/
theorem C7_filling_get_order_statistic (q : ℚ) (hq0 : 0 ≤ q) (hq1 : q ≤ 1)
    (xs : List ℚ) (h1 : 1 ≤ xs.length) (h4 : xs.length ≤ 4) :
    ∃ s, runQuantile q xs = .ok s ∧ s.heights_sorted = false ∧
      s.get = .ok (.fin ((sortQ xs).getD
        (min (xs.length - 1) (⌊(xs.length : ℚ) * q⌋).toNat) 0)) := by
  obtain ⟨s, hrun, hq, hs, hheights, hlen, hsort, hbounds, hflag, hfill⟩ :=
    runQuantile_inv q xs
  have hflagF : s.heights_sorted = false := by
    rw [hflag]
    exact decide_eq_false (by omega)
  have hhs : hs = sortQ xs := hfill (by omega)
  have hlenhs : hs.length = xs.length := by omega
  refine ⟨s, hrun, hflagF, ?_⟩
  rw [quantile_get_filling s hs hflagF hheights (by rw [hq]; exact hq0)
    (by rw [hq]; exact hq1) (by omega) (by omega)]
  rw [hlenhs, hhs, hq]

/-- Witness for C7 (mirrors the repository's `first_five_value` test prefix):
`q = 0.99`, two observations. -/
theorem C7_witness :
    ∃ s, runQuantile (99 / 100) [5, 0] = .ok s ∧ s.heights_sorted = false ∧
      s.get = .ok (.fin ((sortQ [5, 0]).getD
        (min (([5, 0] : List ℚ).length - 1)
          (⌊((([5, 0] : List ℚ).length : ℕ) : ℚ) * (99 / 100)⌋).toNat) 0)) :=
  C7_filling_get_order_statistic (99 / 100) (by norm_num) (by norm_num) [5, 0]
    (by decide) (by decide)

/-- Claim C10 (corrected): updating with NaN while fewer than 5 observations are
stored panics only when at least one observation is already stored (the appended
NaN makes the final sort compare it, and the unwrapped comparison fails); with
zero stored observations the NaN is silently stored — sorting a singleton
performs no comparison. -/
theorem C10_nan_in_collection_phase :
    (∀ s : Quantile, 1 ≤ s.heights.length → s.heights.length < 5 →
      (s.update FP.nan).isPanic = true) ∧
    (∀ s : Quantile, s.heights = [] →
      s.update FP.nan = .ok { s with heights := [FP.nan] }) := by
  constructor
  · intro s h1 h4
    unfold Quantile.update
    rw [if_pos (show s.heights.length ≠ 5 by omega)]
    dsimp only
    have hnone : sortOrPanic (s.heights ++ [FP.nan]) = none := by
      unfold sortOrPanic
      rw [if_neg (by rw [List.length_append]; simp only [List.length_singleton]; omega),
        if_pos (by simp)]
    rw [hnone]
    rfl
  · intro s h0
    unfold Quantile.update
    rw [if_pos (by rw [h0]; simp)]
    dsimp only
    rw [h0]
    rfl

/-- Counterexample for C10 as stated: the freshly constructed estimator has 0 < 5
stored observations, yet `update(NaN)` does not panic — it stores the NaN. -/
theorem C10_counterexample :
    Quantile.new (1 / 2) = .ok ⟨1 / 2, [0, 1 / 4, 1 / 2, 3 / 4, 1], [1, 2, 3, 4, 5],
      [1, 2, 3, 4, 5], [], false⟩ ∧
    Quantile.update ⟨1 / 2, [0, 1 / 4, 1 / 2, 3 / 4, 1], [1, 2, 3, 4, 5],
      [1, 2, 3, 4, 5], [], false⟩ FP.nan =
      .ok ⟨1 / 2, [0, 1 / 4, 1 / 2, 3 / 4, 1], [1, 2, 3, 4, 5],
        [1, 2, 3, 4, 5], [FP.nan], false⟩ := by
  decide

/-- Witness for C10 at a one-observation state. -/
theorem C10_witness :
    (Quantile.update ⟨1 / 2, [0, 1 / 4, 1 / 2, 3 / 4, 1], [1, 2, 3, 4, 5],
      [1, 2, 3, 4, 5], [FP.fin 9], false⟩ FP.nan).isPanic = true :=
  C10_nan_in_collection_phase.1 _ (by decide) (by decide)
